import Mathlib

/-!
Verification of the fomo volume-browsing core.

Shallow embedding of the in-scope components of the repository:
the slice cache (`fomo/core/cache.py`), contrast windowing
(`fomo/core/contrast.py`), histogram threshold clamping
(`fomo/widgets/histogram.py`), the oblique-plane geometry and trilinear
resampler (`fomo/features/picking.py`) and the histogram subsampler
(`fomo/core/sampling.py`).  Numeric values are embedded as exact
rationals (`ℚ`); machine floats in the source are modelled exactly where
the concrete inputs used in the theorems are dyadic and all operations
stay exact.
-/

namespace Fomo

/-! ### Slice cache (`fomo/core/cache.py`)

`SliceCache` wraps a Python `OrderedDict`.  We model the ordered dict as
an association list, oldest (least-recently-inserted) entry first, which
is exactly the iteration order of `OrderedDict`:

* `get` is `self._data.get(key)`: a pure lookup, it does **not** reorder
  the dict;
* `put` pops an existing binding for the key, appends the new binding at
  the most-recently-used end, then pops items from the front
  (`popitem(last=False)`) while the size exceeds the capacity.
-/

structure SliceCache where
  capacity : ℕ
  data : List (ℕ × ℕ)
  deriving DecidableEq, Repr

/-- `SliceCache(capacity)` constructor: empty ordered dict. -/
def SliceCache.empty (cap : ℕ) : SliceCache := ⟨cap, []⟩

/-- `SliceCache.get`: `self._data.get(key)` — lookup without reordering. -/
def SliceCache.get (c : SliceCache) (k : ℕ) : Option ℕ :=
  (c.data.find? (fun p => p.1 == k)).map Prod.snd

/-- `SliceCache.put`: pop the key if present, insert at the MRU end, then
evict from the LRU end while the size exceeds the capacity.  The
`while len > capacity: popitem(last=False)` loop removes exactly
`len - capacity` items from the front, i.e. `List.drop (len - capacity)`. -/
def SliceCache.put (c : SliceCache) (k v : ℕ) : SliceCache :=
  let d := (c.data.filter (fun p => p.1 ≠ k)) ++ [(k, v)]
  ⟨c.capacity, d.drop (d.length - c.capacity)⟩

/-- Insert a list of (key, value) pairs in order. -/
def SliceCache.putSeq (c : SliceCache) (kvs : List (ℕ × ℕ)) : SliceCache :=
  kvs.foldl (fun c p => c.put p.1 p.2) c

end Fomo

namespace Fomo

/-! ### Contrast windowing (`fomo/core/contrast.py`)

`apply_contrast(arr, minv, maxv)` computes
`np.clip((arr - minv) / (maxv - minv), 0, 1)` and converts
`(arr8 * 255)` with `astype(np.uint8)`.  `np.clip(x, lo, hi)` is
`minimum(maximum(x, lo), hi)`, and the `uint8` cast truncates toward
zero; on the clipped value in `[0, 255]` truncation is `Int.floor`. -/

/-- `np.clip(x, lo, hi) = min (max x lo) hi` (upper bound applied last). -/
def npClip (x lo hi : ℚ) : ℚ := min (max x lo) hi

/-- `apply_contrast` for a single scalar: clip the affine rescale to
`[0,1]`, scale by 255, truncate to an integer (the `uint8` cast). -/
def apply_contrast (v minv maxv : ℚ) : ℤ :=
  Int.floor (npClip ((v - minv) / (maxv - minv)) 0 1 * 255)

/-- Modelled from the spec: `normalize` as §4.2 words it —
`clamp((value - min) / (max - min), 0, 1) * 255` *rounded toward
nearest* (Mathlib's `round`, which rounds half up). -/
def normalize_spec (v minv maxv : ℚ) : ℤ :=
  round (npClip ((v - minv) / (maxv - minv)) 0 1 * 255)

/-! ### Histogram threshold clamping (`fomo/widgets/histogram.py`)

`HistogramWidget._clamp_thresholds` repairs the user's contrast pair
against the histogram edge extent `[lo, hi]` (`lo = edges[0]`,
`hi = edges[-1]`; the empty-`edges` early return is modelled by the
caller passing the two ends of a nonempty edge array):
`eps = 1e-6 * max(1, |hi - lo|)`;
`min_val = np.clip(min_val, lo, hi - eps)`;
`max_val = np.clip(max_val, lo + eps, hi)`;
and if `min_val >= max_val` both are reset to the full extent
`(lo, hi)`. -/

/-- `eps = 1e-6 * max(1.0, abs(hi - lo))`. -/
def epsHist (lo hi : ℚ) : ℚ := (1 / 1000000) * max 1 |hi - lo|

/-- `HistogramWidget._clamp_thresholds`, returning the repaired
`(min_val, max_val)` pair. -/
def clamp_thresholds (lo hi minv maxv : ℚ) : ℚ × ℚ :=
  let eps := epsHist lo hi
  let m := npClip minv lo (hi - eps)
  let M := npClip maxv (lo + eps) hi
  if M ≤ m then (lo, hi) else (m, M)

end Fomo

namespace Fomo

/-! ### Plane geometry (`fomo/features/picking.py`)

Vectors are triples of exact rationals; the source uses `float32`
numpy arrays.  `np.linalg.norm` is irrational in general, so the three
norms consumed by `_render_plane` (`|p2 - p1|`, `|cross(v, up)|`,
`|cross(v, a)|`) enter the embedding as parameters; the theorems
constrain them by their defining equations `n ≥ 0 ∧ n² = dot w w`, which
pins them uniquely. -/

structure Vec3 where
  x : ℚ
  y : ℚ
  z : ℚ
  deriving DecidableEq, Repr

instance : Add Vec3 := ⟨fun u v => ⟨u.x + v.x, u.y + v.y, u.z + v.z⟩⟩

instance : Sub Vec3 := ⟨fun u v => ⟨u.x - v.x, u.y - v.y, u.z - v.z⟩⟩

instance : SMul ℚ Vec3 := ⟨fun c v => ⟨c * v.x, c * v.y, c * v.z⟩⟩

/-- `np.dot` on 3-vectors. -/
def dot (u v : Vec3) : ℚ := u.x * v.x + u.y * v.y + u.z * v.z

/-- `np.cross` on 3-vectors. -/
def cross (u v : Vec3) : Vec3 :=
  ⟨u.y * v.z - u.z * v.y, u.z * v.x - u.x * v.z, u.x * v.y - u.y * v.x⟩

/-- Python's built-in `round` (round half to even), as used in
`int(round(nv))`. -/
def pyRound (q : ℚ) : ℤ :=
  let f := Int.floor q
  if q - f < 1 / 2 then f
  else if 1 / 2 < q - f then f + 1
  else if Even f then f else f + 1

/-- The plane state stored by `_render_plane`: `_plane_origin`,
`_plane_v` (tangent), `_plane_a` (lateral), `_plane_b` (normal),
`_plane_half_w`, `_plane_height`. -/
structure PlaneFrame where
  origin : Vec3
  tangentV : Vec3
  lateralA : Vec3
  normalB : Vec3
  halfW : ℤ
  height : ℤ
  deriving DecidableEq, Repr

/-- `PickingControls.volume_to_plane` with an active plane:
`px = dot(p - origin, a) + half_w`, `py = dot(p - origin, v)`. -/
def volume_to_plane (origin a v : Vec3) (halfW : ℚ) (p : Vec3) : ℚ × ℚ :=
  (dot (p - origin) a + halfW, dot (p - origin) v)

/-- `PickingControls.map_xy_to_volume` with an active plane:
`origin + (x - half_w)·a + y·v`. -/
def map_xy_to_volume (origin a v : Vec3) (halfW : ℚ) (px py : ℚ) : Vec3 :=
  origin + (px - halfW) • a + py • v

/-- The frame-building part of `PickingControls._render_plane`.
`nv`, `na`, `nb` are the values of `np.linalg.norm(p2 - p1)`,
`np.linalg.norm(cross(v, up))` and `np.linalg.norm(cross(v, a))`;
`none` is the degenerate early return (`nv < 1e-6`).  The code then
fixes `width = 40`, `half_w = width // 2 = 20` and
`height = int(round(nv)) or 1`. -/
def renderPlaneFrame (p1 p2 : Vec3) (nv na nb : ℚ) : Option PlaneFrame :=
  if nv < 1 / 1000000 then none
  else
    let v := (1 / nv) • (p2 - p1)
    let up : Vec3 := if 9 / 10 < |dot v ⟨0, 0, 1⟩| then ⟨0, 1, 0⟩ else ⟨0, 0, 1⟩
    let a0 := cross v up
    let a1 := if na < 1 / 1000000 then (⟨1, 0, 0⟩ : Vec3) else a0
    let na1 : ℚ := if na < 1 / 1000000 then 1 else na
    let a := (1 / na1) • a1
    let b := (1 / max nb (1 / 1000000)) • cross v a
    let h0 := pyRound nv
    some ⟨p1, v, a, b, 20, if h0 = 0 then 1 else h0⟩

/-- The mutable state touched by `_show_custom_plane` /
`_render_plane`: the stored defining points `_line`, the base z
`_base_z`, the stored plane annotations `_plane_points_world`, the plane
frame fields, and the `_plane_editing` flag. -/
structure PickState where
  line : Option (Vec3 × Vec3)
  baseZ : ℚ
  planePoints : List Vec3
  frame : Option PlaneFrame
  editing : Bool
  deriving DecidableEq, Repr

/-- `_render_plane` as a state update: the degenerate early return
(`nv < 1e-6`) leaves the state untouched; otherwise the plane frame
fields are overwritten with the freshly built frame. -/
def renderPlaneState (s : PickState) (p1 p2 : Vec3) (nv na nb : ℚ) : PickState :=
  match renderPlaneFrame p1 p2 nv na nb with
  | none => s
  | some f => { s with frame := some f }

/-- `_show_custom_plane(p1, p2)`: stores `_line = (p1, p2)`,
`_base_z = viewer.z`, clears `_plane_points_world` (and the drawn
annotations), calls `_render_plane`, then sets `_plane_editing = True` —
in that order, unconditionally. -/
def show_custom_plane (s : PickState) (p1 p2 : Vec3) (viewerZ : ℚ)
    (nv na nb : ℚ) : PickState :=
  let s1 : PickState :=
    { s with line := some (p1, p2), baseZ := viewerZ, planePoints := [] }
  let s2 := renderPlaneState s1 p1 p2 nv na nb
  { s2 with editing := true }

end Fomo

namespace Fomo

/-! ### Trilinear interpolation (`PickingControls._trilinear`)

The vectorized numpy routine acts independently on every output pixel;
we embed the per-coordinate computation.  The volume is a `(Z, Y, X)`
array accessed as `vol[z, y, x]`. -/

structure Volume where
  dimZ : ℕ
  dimY : ℕ
  dimX : ℕ
  voxel : ℕ → ℕ → ℕ → ℚ

/-- Per-axis clamp `np.clip(c, 0, dim - 1)` of the target coordinate. -/
def clampCoord (q : ℚ) (dim : ℕ) : ℚ := npClip q 0 ((dim : ℚ) - 1)

/-- Lower corner index `floor(c)` (`np.floor(...).astype(np.int32)`). -/
def corner0 (q : ℚ) : ℤ := Int.floor q

/-- Upper corner index `np.clip(c0 + 1, 0, dim - 1)`. -/
def corner1 (c0 : ℤ) (dim : ℕ) : ℤ := min (max (c0 + 1) 0) ((dim : ℤ) - 1)

/-- `_trilinear` at a single target coordinate `(cx, cy, cz)`: clamp
per axis, take floor/adjacent corner indices, and blend the eight
corners along x, then y, then z with the fractional weights. -/
def trilinear (vol : Volume) (cx cy cz : ℚ) : ℚ :=
  let x := clampCoord cx vol.dimX
  let y := clampCoord cy vol.dimY
  let z := clampCoord cz vol.dimZ
  let x0 := corner0 x
  let x1 := corner1 x0 vol.dimX
  let y0 := corner0 y
  let y1 := corner1 y0 vol.dimY
  let z0 := corner0 z
  let z1 := corner1 z0 vol.dimZ
  let xd := x - x0
  let yd := y - y0
  let zd := z - z0
  let c000 := vol.voxel z0.toNat y0.toNat x0.toNat
  let c100 := vol.voxel z0.toNat y0.toNat x1.toNat
  let c010 := vol.voxel z0.toNat y1.toNat x0.toNat
  let c110 := vol.voxel z0.toNat y1.toNat x1.toNat
  let c001 := vol.voxel z1.toNat y0.toNat x0.toNat
  let c101 := vol.voxel z1.toNat y0.toNat x1.toNat
  let c011 := vol.voxel z1.toNat y1.toNat x0.toNat
  let c111 := vol.voxel z1.toNat y1.toNat x1.toNat
  let c00 := c000 * (1 - xd) + c100 * xd
  let c01 := c001 * (1 - xd) + c101 * xd
  let c10 := c010 * (1 - xd) + c110 * xd
  let c11 := c011 * (1 - xd) + c111 * xd
  let c0 := c00 * (1 - yd) + c10 * yd
  let c1 := c01 * (1 - yd) + c11 * yd
  c0 * (1 - zd) + c1 * zd

end Fomo

namespace Fomo

/-! ### Histogram subsampling (`fomo/core/sampling.py`)

`subsampled_histogram(memmap_arr, bins, max_voxels)` flattens the
volume; if `total = Z*Y*X` exceeds `max_voxels` it keeps only every
`stride`-th value with `stride = math.ceil(total / max_voxels)`, then
hands the values to `np.histogram` — a pure function of the sampled
values, so determinism of `(counts, edges)` reduces to determinism of
the sample.  We embed the sampling stage. -/

/-- Python slicing `l[::s]`: every `s`-th element starting at index 0. -/
def strided {α : Type} : List α → ℕ → List α
  | [], _ => []
  | a :: rest, s => a :: strided (rest.drop (s - 1)) s
termination_by l _ => l.length
decreasing_by
  simp only [List.length_cons]
  have := List.length_drop (s - 1) rest
  omega

/-- `stride = math.ceil(total / max_voxels)` (exact rational division;
the source's float division is exact at these magnitudes). -/
def strideOf (total maxVoxels : ℕ) : ℕ :=
  (Int.ceil ((total : ℚ) / (maxVoxels : ℚ))).toNat

/-- The value-sampling stage of `subsampled_histogram` for a volume of
shape `(Z, Y, X)` whose flattened voxel list is `vals`. -/
def subsampled_values (dimZ dimY dimX : ℕ) (vals : List ℚ) (maxVoxels : ℕ) :
    List ℚ :=
  let total := dimZ * dimY * dimX
  if total ≤ maxVoxels then vals
  else strided vals (strideOf total maxVoxels)

end Fomo

namespace Fomo

/-! ## Shared helper lemmas -/

/-- `find?` on an association list built by pairing each key with `f key`
returns the binding of `x` whenever `x` occurs among the keys. -/
theorem find?_pairing {l : List ℕ} {f : ℕ → ℕ} {x : ℕ} (hx : x ∈ l) :
    (l.map fun a => (a, f a)).find? (fun p => p.1 == x) = some (x, f x) := by
  induction l with
  | nil => cases hx
  | cons a l ih =>
    rw [List.map_cons]
    by_cases hax : a = x
    · subst hax
      rw [List.find?_cons_of_pos _ (by simp)]
    · rw [List.find?_cons_of_neg _ (by simpa using hax)]
      have hx' : x ∈ l := by
        rcases List.mem_cons.mp hx with h | h
        · exact absurd h.symm hax
        · exact h
      exact ih hx'

/-- `find?` on such an association list fails when `x` is not a key. -/
theorem find?_pairing_none {l : List ℕ} {f : ℕ → ℕ} {x : ℕ} (hx : x ∉ l) :
    (l.map fun a => (a, f a)).find? (fun p => p.1 == x) = none := by
  refine List.find?_eq_none.mpr ?_
  intro p hp
  rcases List.mem_map.mp hp with ⟨a, ha, hev⟩
  subst hev
  simpa using fun h : a = x => hx (h ▸ ha)

/-- `putSeq` never changes the capacity field. -/
theorem putSeq_capacity (c : SliceCache) (l : List (ℕ × ℕ)) :
    (SliceCache.putSeq c l).capacity = c.capacity := by
  induction l generalizing c with
  | nil => rfl
  | cons p l ih =>
    simpa [SliceCache.putSeq, List.foldl_cons] using ih (c.put p.1 p.2)

/-- Structure of the cache after inserting a list of fresh distinct keys
into an empty cache: the ordered dict holds the bindings in insertion
order, truncated at the front to the capacity. -/
theorem putSeq_fresh (cap : ℕ) (f : ℕ → ℕ) (ks : List ℕ) (hnd : ks.Nodup) :
    (SliceCache.putSeq (SliceCache.empty cap) (ks.map fun a => (a, f a))).data
      = (ks.map fun a => (a, f a)).drop (ks.length - cap) := by
  induction ks using List.reverseRecOn with
  | nil => simp [SliceCache.putSeq, SliceCache.empty]
  | append_singleton ks k ih =>
    have hsplit := List.nodup_append.mp hnd
    have hk : k ∉ ks := fun hmem => hsplit.2.2 hmem (List.mem_singleton_self k)
    have ihd := ih hsplit.1
    have hcap : (SliceCache.putSeq (SliceCache.empty cap)
        (ks.map fun a => (a, f a))).capacity = cap :=
      putSeq_capacity (SliceCache.empty cap) _
    rw [List.map_append, List.map_singleton, SliceCache.putSeq, List.foldl_append,
      List.foldl_cons, List.foldl_nil]
    have hstep :
        (List.foldl (fun c p => c.put p.1 p.2) (SliceCache.empty cap)
          (ks.map fun a => (a, f a)))
          = SliceCache.putSeq (SliceCache.empty cap) (ks.map fun a => (a, f a)) := rfl
    rw [hstep]
    set s := SliceCache.putSeq (SliceCache.empty cap) (ks.map fun a => (a, f a)) with hs
    have hfil : s.data.filter (fun p => decide (p.1 ≠ k)) = s.data := by
      refine List.filter_eq_self.mpr ?_
      intro p hp
      have hpM : p ∈ ks.map fun a => (a, f a) := by
        have := hp
        rw [ihd] at this
        exact List.mem_of_mem_drop this
      rcases List.mem_map.mp hpM with ⟨a, ha, hev⟩
      cases hev
      simpa using fun h : a = k => hk (h ▸ ha)
    show ((s.put k (f k)).data) = _
    rw [SliceCache.put]
    simp only [hcap]
    simp only [hfil]
    simp only [ihd]
    have hle : ks.length - cap ≤ (ks.map fun a => (a, f a)).length := by
      rw [List.length_map]; omega
    rw [← List.drop_append_of_le_length hle, List.drop_drop]
    congr 1
    simp only [List.length_append, List.length_drop, List.length_map,
      List.length_singleton]
    omega

end Fomo

namespace Fomo

/-! ## Claim theorems: slice cache -/

/-- C1: the spec claims `get` promotes the accessed key to
most-recently-used, so that in a capacity-2 cache
`put(A); put(B); get(A); put(C)` evicts `B` and keeps `A`.  The source's
`SliceCache.get` is a plain `dict.get` that never reorders the
`OrderedDict`, so the eviction at `put(C)` removes the oldest *inserted*
key `A`: the code keeps `B` and `C` and evicts `A`, contradicting the
spec.  This theorem evaluates the embedded code on exactly that failing
sequence (keys `A = 0`, `B = 1`, `C = 2`). -/
theorem lru_get_promotion_failing :
    ((((SliceCache.empty 2).put 0 10).put 1 11).get 0 = some 10)
    ∧ (((((SliceCache.empty 2).put 0 10).put 1 11).put 2 12).get 0 = none)
    ∧ (((((SliceCache.empty 2).put 0 10).put 1 11).put 2 12).get 1 = some 11)
    ∧ (((((SliceCache.empty 2).put 0 10).put 1 11).put 2 12).get 2 = some 12) := by
  decide

/-- C2: inserting `cap + k` distinct keys (no intervening `get`) into an
empty cache of capacity `cap` leaves exactly `cap` entries; the `k`
earliest-inserted keys are absent and the later `cap` keys are all still
present with their values. -/
theorem cache_bound_eviction (cap k : ℕ) (ks : List ℕ) (f : ℕ → ℕ)
    (hnd : ks.Nodup) (hlen : ks.length = cap + k) :
    ((SliceCache.putSeq (SliceCache.empty cap) (ks.map fun a => (a, f a))).data.length = cap)
    ∧ (∀ x ∈ ks.take k,
        (SliceCache.putSeq (SliceCache.empty cap) (ks.map fun a => (a, f a))).get x = none)
    ∧ (∀ x ∈ ks.drop k,
        (SliceCache.putSeq (SliceCache.empty cap) (ks.map fun a => (a, f a))).get x
          = some (f x)) := by
  have hdata := putSeq_fresh cap f ks hnd
  have hk : ks.length - cap = k := by omega
  have hdata' :
      (SliceCache.putSeq (SliceCache.empty cap) (ks.map fun a => (a, f a))).data
        = (ks.drop k).map fun a => (a, f a) := by
    rw [hdata, hk, List.map_drop]
  have hnodup_split : ((ks.take k) ++ (ks.drop k)).Nodup := by
    rw [List.take_append_drop]; exact hnd
  have hdisj := (List.nodup_append.mp hnodup_split).2.2
  refine ⟨?_, ?_, ?_⟩
  · rw [hdata', List.length_map, List.length_drop]; omega
  · intro x hx
    have hxnot : x ∉ ks.drop k := fun hmem => hdisj hx hmem
    rw [SliceCache.get, hdata', find?_pairing_none hxnot]
    rfl
  · intro x hx
    rw [SliceCache.get, hdata', find?_pairing hx]
    rfl

/-- Witness for C2 at capacity 2, five distinct keys (`k = 3`). -/
theorem cache_bound_eviction_witness :
    ((List.range 5).Nodup ∧ (List.range 5).length = 2 + 3)
    ∧ ((SliceCache.putSeq (SliceCache.empty 2)
        ((List.range 5).map fun a => (a, a))).data.length = 2) :=
  ⟨⟨List.nodup_range 5, by decide⟩,
    (cache_bound_eviction 2 3 (List.range 5) (fun a => a)
      (List.nodup_range 5) (by decide)).1⟩

/-! ## Claim theorems: contrast windowing -/

/-- C4 counterexample: the spec says `normalize` rounds toward nearest,
but the `astype(np.uint8)` cast truncates.  At `value = 1` with range
`(0, 2)` the scaled value is exactly `127.5`: the code produces 127
while nearest rounding produces 128. -/
theorem contrast_truncation_counterexample :
    apply_contrast 1 0 2 = 127 ∧ normalize_spec 1 0 2 = 128
    ∧ apply_contrast 1 0 2 ≠ normalize_spec 1 0 2 := by
  have h1 : apply_contrast 1 0 2 = 127 := by
    norm_num [apply_contrast, npClip]
  have h2 : normalize_spec 1 0 2 = 128 := by
    norm_num [normalize_spec, npClip, round_eq]
  exact ⟨h1, h2, by rw [h1, h2]; decide⟩

/-- C4 (amended): for `max > min`, `apply_contrast` returns the *floor*
(truncation) of `clamp((value-min)/(max-min), 0, 1) * 255`, an integer
lying in `[0, 255]` (so the `uint8` cast is value-preserving). -/
theorem apply_contrast_floor_range (v minv maxv : ℚ) (h : minv < maxv) :
    0 ≤ apply_contrast v minv maxv ∧ apply_contrast v minv maxv ≤ 255
    ∧ ((apply_contrast v minv maxv : ℚ)
          ≤ npClip ((v - minv) / (maxv - minv)) 0 1 * 255
        ∧ npClip ((v - minv) / (maxv - minv)) 0 1 * 255
          < (apply_contrast v minv maxv : ℚ) + 1) := by
  have h0 : 0 ≤ npClip ((v - minv) / (maxv - minv)) 0 1 :=
    le_min (le_max_right _ 0) zero_le_one
  have h1 : npClip ((v - minv) / (maxv - minv)) 0 1 ≤ 1 := min_le_right _ _
  have hs0 : 0 ≤ npClip ((v - minv) / (maxv - minv)) 0 1 * 255 := by positivity
  have hs1 : npClip ((v - minv) / (maxv - minv)) 0 1 * 255 ≤ 255 := by nlinarith
  refine ⟨?_, ?_, Int.floor_le _, Int.lt_floor_add_one _⟩
  · exact Int.le_floor.mpr (by exact_mod_cast hs0)
  · calc apply_contrast v minv maxv
        ≤ ⌊(255 : ℚ)⌋ := Int.floor_le_floor hs1
      _ = 255 := by norm_num

/-- Witness for C4's amended theorem at `value = 1`, range `(0, 2)`. -/
theorem apply_contrast_floor_range_witness :
    (0 : ℚ) < 2 ∧ (0 ≤ apply_contrast 1 0 2 ∧ apply_contrast 1 0 2 ≤ 255) :=
  ⟨by norm_num,
    ⟨(apply_contrast_floor_range 1 0 2 (by norm_num)).1,
     (apply_contrast_floor_range 1 0 2 (by norm_num)).2.1⟩⟩

/-- C5: for any fixed range with `max > min`, `apply_contrast` is
monotone non-decreasing in the value, and maps the endpoints exactly:
`normalize(min) = 0`, `normalize(max) = 255`. -/
theorem contrast_monotone_endpoints (minv maxv : ℚ) (h : minv < maxv) :
    (∀ v w : ℚ, v ≤ w →
        apply_contrast v minv maxv ≤ apply_contrast w minv maxv)
    ∧ apply_contrast minv minv maxv = 0
    ∧ apply_contrast maxv minv maxv = 255 := by
  have hd : (0 : ℚ) < maxv - minv := by linarith
  refine ⟨?_, ?_, ?_⟩
  · intro v w hvw
    apply Int.floor_le_floor
    have hdiv : (v - minv) / (maxv - minv) ≤ (w - minv) / (maxv - minv) :=
      (div_le_div_iff_of_pos_right hd).mpr (by linarith)
    have hclip : npClip ((v - minv) / (maxv - minv)) 0 1
        ≤ npClip ((w - minv) / (maxv - minv)) 0 1 :=
      min_le_min (max_le_max hdiv le_rfl) le_rfl
    nlinarith
  · simp [apply_contrast, npClip]
  · have hne : maxv - minv ≠ 0 := ne_of_gt hd
    rw [apply_contrast, div_self hne]
    norm_num [npClip]

/-- Witness for C5 at range `(0, 2)`. -/
theorem contrast_monotone_endpoints_witness :
    (0 : ℚ) < 2 ∧ apply_contrast 0 0 2 = 0 ∧ apply_contrast 2 0 2 = 255
    ∧ apply_contrast 1 0 2 ≤ apply_contrast 2 0 2 :=
  ⟨by norm_num,
    (contrast_monotone_endpoints 0 2 (by norm_num)).2.1,
    (contrast_monotone_endpoints 0 2 (by norm_num)).2.2,
    (contrast_monotone_endpoints 0 2 (by norm_num)).1 1 2 (by norm_num)⟩

/-! ## Claim theorems: contrast threshold clamping -/

/-- C3 counterexample: the claim that every repaired range satisfies
`max > min` *by at least an epsilon span* fails.  With histogram extent
`[0, 1]` (`eps = 1e-6`), the already-valid user pair
`(1/2, 1/2 + 2^-23)` lies strictly inside the clip bounds, the reset
branch does not fire, and the pair passes through `_clamp_thresholds`
unchanged with a span of `2^-23 < eps`.  All values are dyadic, so the
float computation in the source is exact. -/
theorem clamp_thresholds_epsilon_counterexample :
    ((clamp_thresholds 0 1 (1 / 2) (1 / 2 + 1 / 8388608)).1
        < (clamp_thresholds 0 1 (1 / 2) (1 / 2 + 1 / 8388608)).2)
    ∧ ((clamp_thresholds 0 1 (1 / 2) (1 / 2 + 1 / 8388608)).2
          - (clamp_thresholds 0 1 (1 / 2) (1 / 2 + 1 / 8388608)).1
        < epsHist 0 1) := by
  norm_num [clamp_thresholds, epsHist, npClip]

/-- C3 (amended): whenever the histogram edges satisfy `lo < hi`,
`_clamp_thresholds` always yields a strictly valid range `max > min`
(preventing the division by zero in rendering); and the degenerate pair
`(10, 10)` is in particular repaired — with extent `[0, 20]` it resets
to the full extent `(0, 20)`, whose span does exceed the epsilon.  The
"at least an epsilon span" bound of the claim does *not* hold for every
input pair (see the counterexample). -/
theorem clamp_thresholds_valid (lo hi minv maxv : ℚ) (hlohi : lo < hi) :
    ((clamp_thresholds lo hi minv maxv).1 < (clamp_thresholds lo hi minv maxv).2)
    ∧ (clamp_thresholds 0 20 10 10 = (0, 20) ∧ epsHist 0 20 ≤ 20 - 0) := by
  refine ⟨?_, ?_, ?_⟩
  · simp only [clamp_thresholds]
    split_ifs with hMm
    · exact hlohi
    · exact lt_of_not_le hMm
  · norm_num [clamp_thresholds, epsHist, npClip]
  · norm_num [epsHist]

/-- Witness for C3's amended theorem at edges `[0, 20]`. -/
theorem clamp_thresholds_valid_witness :
    (0 : ℚ) < 20
    ∧ ((clamp_thresholds 0 20 10 10).1 < (clamp_thresholds 0 20 10 10).2) :=
  ⟨by norm_num, (clamp_thresholds_valid 0 20 10 10 (by norm_num)).1⟩

/-! ## Claim theorems: coordinate round trip -/

/-- Components of `Vec3` addition. -/
theorem Vec3.add_def (u v : Vec3) :
    u + v = ⟨u.x + v.x, u.y + v.y, u.z + v.z⟩ := rfl

/-- Components of `Vec3` subtraction. -/
theorem Vec3.sub_def (u v : Vec3) :
    u - v = ⟨u.x - v.x, u.y - v.y, u.z - v.z⟩ := rfl

/-- Components of the scalar action on `Vec3`. -/
theorem Vec3.smul_def (c : ℚ) (v : Vec3) :
    c • v = ⟨c * v.x, c * v.y, c * v.z⟩ := rfl

/-- C6: for any plane frame whose stored tangent `v` and lateral `a`
are unit and orthogonal (as holds for constructed frames), and any point
`p = origin + α·a + β·v` on the plane, `volume_to_plane` followed by
`map_xy_to_volume` returns `p` — exactly in the rational embedding,
hence within the claimed 1e-4 tolerance. -/
theorem coordinate_round_trip (origin a v p : Vec3) (halfW α β : ℚ)
    (ha : dot a a = 1) (hv : dot v v = 1) (hav : dot a v = 0)
    (hp : p = origin + α • a + β • v) :
    map_xy_to_volume origin a v halfW
        (volume_to_plane origin a v halfW p).1
        (volume_to_plane origin a v halfW p).2 = p := by
  subst hp
  simp only [volume_to_plane, map_xy_to_volume, Vec3.add_def, Vec3.sub_def,
    Vec3.smul_def, dot] at *
  rw [Vec3.mk.injEq]
  refine ⟨?_, ?_, ?_⟩
  · linear_combination (α * a.x) * ha + (β * a.x + α * v.x) * hav + (β * v.x) * hv
  · linear_combination (α * a.y) * ha + (β * a.y + α * v.y) * hav + (β * v.y) * hv
  · linear_combination (α * a.z) * ha + (β * a.z + α * v.z) * hav + (β * v.z) * hv

/-- Witness for C6: frame `origin = 0`, `a = (1,0,0)`, `v = (0,0,1)`,
`half_width = 20`, point `p = (3,0,5) = origin + 3·a + 5·v`. -/
theorem coordinate_round_trip_witness :
    (dot ⟨1, 0, 0⟩ ⟨1, 0, 0⟩ = 1 ∧ dot ⟨0, 0, 1⟩ ⟨0, 0, 1⟩ = 1
      ∧ dot ⟨1, 0, 0⟩ ⟨0, 0, 1⟩ = 0
      ∧ (⟨3, 0, 5⟩ : Vec3) = ⟨0, 0, 0⟩ + (3 : ℚ) • ⟨1, 0, 0⟩ + (5 : ℚ) • ⟨0, 0, 1⟩)
    ∧ map_xy_to_volume ⟨0, 0, 0⟩ ⟨1, 0, 0⟩ ⟨0, 0, 1⟩ 20
        (volume_to_plane ⟨0, 0, 0⟩ ⟨1, 0, 0⟩ ⟨0, 0, 1⟩ 20 ⟨3, 0, 5⟩).1
        (volume_to_plane ⟨0, 0, 0⟩ ⟨1, 0, 0⟩ ⟨0, 0, 1⟩ 20 ⟨3, 0, 5⟩).2
      = ⟨3, 0, 5⟩ :=
  ⟨⟨by norm_num [dot], by norm_num [dot], by norm_num [dot],
      by norm_num [Vec3.add_def, Vec3.smul_def]⟩,
    coordinate_round_trip ⟨0, 0, 0⟩ ⟨1, 0, 0⟩ ⟨0, 0, 1⟩ ⟨3, 0, 5⟩ 20 3 5
      (by norm_num [dot]) (by norm_num [dot]) (by norm_num [dot])
      (by norm_num [Vec3.add_def, Vec3.smul_def])⟩

/-! ## Claim theorems: oblique plane builder -/

/-- `pyRound` of a nonnegative rational is nonnegative. -/
theorem pyRound_nonneg (q : ℚ) (h : 0 ≤ q) : 0 ≤ pyRound q := by
  have h0 : 0 ≤ Int.floor q := Int.floor_nonneg.mpr h
  simp only [pyRound]
  split_ifs <;> omega

/-- C7: the frame builder.  First conjunct (every successful build):
`half_width = 20` and `height ≥ 1`.  Second conjunct (the concrete
scenario): for `p1 = (0,0,0)`, `p2 = (0,0,10)` — where the norms are
the exact rationals pinned by `n ≥ 0 ∧ n² = |·|²` — the built frame has
`tangent_v = (0,0,1)` (forcing the `up = (0,1,0)` branch since
`|dot(v, (0,0,1))| = 1 > 0.9`), `height = round(10) = 10`,
`half_width = 20`, and plane-local `(px = 20, py = 5)` maps back to the
volume point `(0,0,5)`. -/
theorem render_plane_frame_spec :
    (∀ (p1 p2 : Vec3) (nv na nb : ℚ) (f : PlaneFrame),
        renderPlaneFrame p1 p2 nv na nb = some f →
          f.halfW = 20 ∧ 1 ≤ f.height)
    ∧ (∀ nv na nb : ℚ, 0 ≤ nv → nv * nv = 100 → 0 ≤ na → na * na = 1 →
        0 ≤ nb → nb * nb = 1 →
        ∃ f, renderPlaneFrame ⟨0, 0, 0⟩ ⟨0, 0, 10⟩ nv na nb = some f
          ∧ f.tangentV = ⟨0, 0, 1⟩ ∧ f.height = 10 ∧ f.halfW = 20
          ∧ map_xy_to_volume f.origin f.lateralA f.tangentV 20 20 5
              = ⟨0, 0, 5⟩) := by
  constructor
  · intro p1 p2 nv na nb f hf
    simp only [renderPlaneFrame] at hf
    by_cases hdeg : nv < 1 / 1000000
    · rw [if_pos hdeg] at hf
      exact absurd hf (by simp)
    · rw [if_neg hdeg] at hf
      obtain rfl : _ = f := Option.some.inj hf
      refine ⟨rfl, ?_⟩
      have hnv : (0 : ℚ) ≤ nv := le_trans (by norm_num) (not_lt.mp hdeg)
      have h0 := pyRound_nonneg nv hnv
      show (1 : ℤ) ≤ (if pyRound nv = 0 then 1 else pyRound nv)
      split_ifs with hz
      · exact le_refl 1
      · omega
  · intro nv na nb h1 h2 h3 h4 h5 h6
    obtain rfl : nv = 10 := by
      rcases mul_eq_zero.mp (show (nv - 10) * (nv + 10) = 0 by
        linear_combination h2) with h | h
      · linarith
      · linarith
    obtain rfl : na = 1 := by
      rcases mul_eq_zero.mp (show (na - 1) * (na + 1) = 0 by
        linear_combination h4) with h | h
      · linarith
      · linarith
    obtain rfl : nb = 1 := by
      rcases mul_eq_zero.mp (show (nb - 1) * (nb + 1) = 0 by
        linear_combination h6) with h | h
      · linarith
      · linarith
    refine ⟨⟨⟨0, 0, 0⟩, ⟨0, 0, 1⟩, ⟨-1, 0, 0⟩, ⟨0, -1, 0⟩, 20, 10⟩,
      ?_, rfl, rfl, rfl, ?_⟩
    · simp only [renderPlaneFrame, Vec3.sub_def, Vec3.smul_def, dot, cross,
        pyRound]
      norm_num [Option.some.injEq, PlaneFrame.mk.injEq, Vec3.mk.injEq,
        Int.floor_eq_iff]
    · norm_num [map_xy_to_volume, Vec3.add_def, Vec3.smul_def, Vec3.mk.injEq]

/-- Witness for C7 at the admissible norms `nv = 10`, `na = nb = 1`. -/
theorem render_plane_frame_spec_witness :
    ∃ f, renderPlaneFrame ⟨0, 0, 0⟩ ⟨0, 0, 10⟩ 10 1 1 = some f
      ∧ f.tangentV = ⟨0, 0, 1⟩ ∧ f.height = 10 ∧ f.halfW = 20
      ∧ map_xy_to_volume f.origin f.lateralA f.tangentV 20 20 5 = ⟨0, 0, 5⟩ :=
  render_plane_frame_spec.2 10 1 1 (by norm_num) (by norm_num) (by norm_num)
    (by norm_num) (by norm_num) (by norm_num)

/-! ## Claim theorems: degenerate plane handling -/

/-- C8 counterexample: the claim says a degenerate pick
(`|p2 - p1| < 1e-6`) leaves *all* prior plane state untouched,
including the stored defining points and the editing flag.  In the
source, `_show_custom_plane` overwrites `_line`, resets `_base_z`,
clears `_plane_points_world`, and sets `_plane_editing = True` *before
and after* the degenerate early return of `_render_plane`; only the
frame fields survive.  Evaluated here on a concrete prior state and the
degenerate pick `p1 = p2 = (5,5,5)` (so `nv = 0`). -/
theorem degenerate_plane_counterexample :
    ((show_custom_plane
        ⟨some (⟨0, 0, 0⟩, ⟨0, 0, 10⟩), 0, [⟨1, 1, 1⟩],
          some ⟨⟨0, 0, 0⟩, ⟨0, 0, 1⟩, ⟨-1, 0, 0⟩, ⟨0, -1, 0⟩, 20, 10⟩, false⟩
        ⟨5, 5, 5⟩ ⟨5, 5, 5⟩ 2 0 0 0).frame
      = some ⟨⟨0, 0, 0⟩, ⟨0, 0, 1⟩, ⟨-1, 0, 0⟩, ⟨0, -1, 0⟩, 20, 10⟩)
    ∧ ((show_custom_plane
        ⟨some (⟨0, 0, 0⟩, ⟨0, 0, 10⟩), 0, [⟨1, 1, 1⟩],
          some ⟨⟨0, 0, 0⟩, ⟨0, 0, 1⟩, ⟨-1, 0, 0⟩, ⟨0, -1, 0⟩, 20, 10⟩, false⟩
        ⟨5, 5, 5⟩ ⟨5, 5, 5⟩ 2 0 0 0).line
      ≠ some (⟨0, 0, 0⟩, ⟨0, 0, 10⟩))
    ∧ ((show_custom_plane
        ⟨some (⟨0, 0, 0⟩, ⟨0, 0, 10⟩), 0, [⟨1, 1, 1⟩],
          some ⟨⟨0, 0, 0⟩, ⟨0, 0, 1⟩, ⟨-1, 0, 0⟩, ⟨0, -1, 0⟩, 20, 10⟩, false⟩
        ⟨5, 5, 5⟩ ⟨5, 5, 5⟩ 2 0 0 0).editing
      ≠ false)
    ∧ ((show_custom_plane
        ⟨some (⟨0, 0, 0⟩, ⟨0, 0, 10⟩), 0, [⟨1, 1, 1⟩],
          some ⟨⟨0, 0, 0⟩, ⟨0, 0, 1⟩, ⟨-1, 0, 0⟩, ⟨0, -1, 0⟩, 20, 10⟩, false⟩
        ⟨5, 5, 5⟩ ⟨5, 5, 5⟩ 2 0 0 0).planePoints
      ≠ [⟨1, 1, 1⟩]) := by
  have hnone : renderPlaneFrame ⟨5, 5, 5⟩ ⟨5, 5, 5⟩ 0 0 0 = none := by
    simp only [renderPlaneFrame]
    rw [if_pos (by norm_num)]
  refine ⟨?_, ?_, ?_, ?_⟩ <;>
    norm_num [show_custom_plane, renderPlaneState, hnone, Prod.mk.injEq,
      Vec3.mk.injEq]

/-- C8 (amended): on a degenerate pick the *frame* fields (origin,
basis vectors, half_width, height) are indeed left untouched, and a
bare `_render_plane` call (as issued by `update_plane_for_z`) is a full
no-op; but `_show_custom_plane` still overwrites the stored defining
points with the degenerate pair, resets the base z, clears the stored
plane annotations, and sets the editing flag. -/
theorem degenerate_plane_preserves_frame (s : PickState) (p1 p2 : Vec3)
    (z nv na nb : ℚ) (hdeg : nv < 1 / 1000000) :
    ((show_custom_plane s p1 p2 z nv na nb).frame = s.frame
      ∧ (show_custom_plane s p1 p2 z nv na nb).line = some (p1, p2)
      ∧ (show_custom_plane s p1 p2 z nv na nb).baseZ = z
      ∧ (show_custom_plane s p1 p2 z nv na nb).planePoints = []
      ∧ (show_custom_plane s p1 p2 z nv na nb).editing = true)
    ∧ renderPlaneState s p1 p2 nv na nb = s := by
  have hnone : renderPlaneFrame p1 p2 nv na nb = none := by
    rw [renderPlaneFrame, if_pos hdeg]
  refine ⟨?_, ?_⟩
  · simp [show_custom_plane, renderPlaneState, hnone]
  · simp [renderPlaneState, hnone]

/-- Witness for C8's amended theorem on the counterexample's state. -/
theorem degenerate_plane_preserves_frame_witness :
    (0 : ℚ) < 1 / 1000000
    ∧ (show_custom_plane
        ⟨some (⟨0, 0, 0⟩, ⟨0, 0, 10⟩), 0, [⟨1, 1, 1⟩],
          some ⟨⟨0, 0, 0⟩, ⟨0, 0, 1⟩, ⟨-1, 0, 0⟩, ⟨0, -1, 0⟩, 20, 10⟩, false⟩
        ⟨5, 5, 5⟩ ⟨5, 5, 5⟩ 2 0 0 0).frame
      = (⟨some (⟨0, 0, 0⟩, ⟨0, 0, 10⟩), 0, [⟨1, 1, 1⟩],
          some ⟨⟨0, 0, 0⟩, ⟨0, 0, 1⟩, ⟨-1, 0, 0⟩, ⟨0, -1, 0⟩, 20, 10⟩,
          false⟩ : PickState).frame :=
  ⟨by norm_num,
    (degenerate_plane_preserves_frame
      ⟨some (⟨0, 0, 0⟩, ⟨0, 0, 10⟩), 0, [⟨1, 1, 1⟩],
        some ⟨⟨0, 0, 0⟩, ⟨0, 0, 1⟩, ⟨-1, 0, 0⟩, ⟨0, -1, 0⟩, 20, 10⟩, false⟩
      ⟨5, 5, 5⟩ ⟨5, 5, 5⟩ 2 0 0 0 (by norm_num)).1.1⟩

/-! ## Claim theorems: trilinear interpolation -/

/-- Clamping an in-bounds integer coordinate is the identity. -/
theorem clampCoord_natCast {i n : ℕ} (h : i < n) :
    clampCoord (i : ℚ) n = (i : ℚ) := by
  have h1 : (i : ℚ) + 1 ≤ (n : ℚ) := by exact_mod_cast h
  simp only [clampCoord, npClip]
  rw [max_eq_left (by positivity), min_eq_left (by linarith)]

/-- The lower corner of an integer coordinate is that integer. -/
theorem corner0_natCast (i : ℕ) : corner0 ((i : ℕ) : ℚ) = (i : ℤ) := by
  simp [corner0]

/-- C9: first conjunct — sampling at integer coordinates strictly inside
the volume returns exactly `volume[z, y, x]`, with no blending (the
fractional weights vanish).  Second conjunct — for an arbitrary real
coordinate and any nonempty axis, the clamped floor corner and its
clipped neighbour both lie in `[0, dim - 1]`, so all eight corner
lookups of `_trilinear` are in bounds and the routine never errors. -/
theorem trilinear_grid_exact_and_bounds :
    (∀ (vol : Volume) (i j k : ℕ), i < vol.dimX → j < vol.dimY → k < vol.dimZ →
        trilinear vol (i : ℚ) (j : ℚ) (k : ℚ) = vol.voxel k j i)
    ∧ (∀ (q : ℚ) (n : ℕ), 1 ≤ n →
        0 ≤ corner0 (clampCoord q n) ∧ corner0 (clampCoord q n) ≤ (n : ℤ) - 1
        ∧ 0 ≤ corner1 (corner0 (clampCoord q n)) n
        ∧ corner1 (corner0 (clampCoord q n)) n ≤ (n : ℤ) - 1) := by
  constructor
  · intro vol i j k hi hj hk
    simp only [trilinear, clampCoord_natCast hi, clampCoord_natCast hj,
      clampCoord_natCast hk, corner0_natCast, Int.toNat_natCast]
    push_cast
    ring_nf
  · intro q n hn
    have hub : (0 : ℚ) ≤ (n : ℚ) - 1 := by
      have : (1 : ℚ) ≤ (n : ℚ) := by exact_mod_cast hn
      linarith
    have hge : 0 ≤ clampCoord q n :=
      le_min (le_max_right q 0) hub
    have hle : clampCoord q n ≤ (n : ℚ) - 1 := min_le_right _ _
    have hc0ge : 0 ≤ corner0 (clampCoord q n) := Int.floor_nonneg.mpr hge
    have hc0le : corner0 (clampCoord q n) ≤ (n : ℤ) - 1 := by
      have hcast : ((n : ℚ) - 1) = (((n : ℤ) - 1 : ℤ) : ℚ) := by push_cast; ring
      have := Int.floor_le_floor (α := ℚ) hle
      rwa [hcast, Int.floor_intCast] at this
    refine ⟨hc0ge, hc0le, ?_, ?_⟩
    · exact le_min (le_max_right _ 0) (by omega)
    · exact min_le_right _ _

/-- Witness for C9 on a concrete 2×2×2 volume at grid point
`(x, y, z) = (1, 0, 1)`. -/
theorem trilinear_grid_exact_witness :
    ((1 : ℕ) < 2 ∧ (0 : ℕ) < 2 ∧ (1 : ℕ) < 2 ∧ (1 : ℕ) ≤ 2)
    ∧ trilinear ⟨2, 2, 2, fun z y x => ((z * 100 + y * 10 + x : ℕ) : ℚ)⟩
        ((1 : ℕ) : ℚ) ((0 : ℕ) : ℚ) ((1 : ℕ) : ℚ) = ((101 : ℕ) : ℚ)
    ∧ 0 ≤ corner0 (clampCoord (7 / 2) 2) :=
  ⟨⟨by decide, by decide, by decide, by decide⟩,
    by
      have := trilinear_grid_exact_and_bounds.1
        ⟨2, 2, 2, fun z y x => ((z * 100 + y * 10 + x : ℕ) : ℚ)⟩ 1 0 1
        (by decide) (by decide) (by decide)
      simpa using this,
    (trilinear_grid_exact_and_bounds.2 (7 / 2) 2 (by decide)).1⟩

/-! ## Claim theorems: histogram subsampling -/

/-- Length of a strided slice `l[::s]`: `⌈|l| / s⌉` elements. -/
theorem strided_length {α : Type} (s : ℕ) (hs : 1 ≤ s) (l : List α) :
    (strided l s).length = (l.length + s - 1) / s := by
  generalize hn : l.length = n
  induction n using Nat.strong_induction_on generalizing l with
  | _ n ih =>
    cases l with
    | nil =>
      simp only [List.length_nil] at hn
      subst hn
      simp only [strided, List.length_nil]
      exact (Nat.div_eq_of_lt (by omega)).symm
    | cons a rest =>
      simp only [List.length_cons] at hn
      rw [strided]
      simp only [List.length_cons]
      have hlt : (rest.drop (s - 1)).length < n := by
        rw [List.length_drop]; omega
      rw [ih _ hlt _ rfl, List.length_drop]
      by_cases hm : rest.length ≤ s - 1
      · have h1 : rest.length - (s - 1) = 0 := by omega
        have h2 : (0 + s - 1) / s = 0 := Nat.div_eq_of_lt (by omega)
        have h3 : rest.length + 1 + s - 1 = rest.length + s := by omega
        have h4 : (rest.length + s) / s = 1 := by
          rw [Nat.add_div_right _ (by omega : 0 < s),
            Nat.div_eq_of_lt (by omega : rest.length < s)]
        rw [h1, h2, ← hn, h3, h4]
      · have h1 : rest.length - (s - 1) + s - 1 = rest.length := by omega
        have h2 : rest.length + 1 + s - 1 = rest.length + s := by omega
        rw [h1, ← hn, h2, Nat.add_div_right _ (by omega : 0 < s)]

/-- C10: the sampling stage of `subsampled_histogram`.  When
`Z*Y*X ≤ max_voxels` every voxel is consumed; otherwise the flattened
values are strided by `stride = ceil(total / max_voxels)`; the sample
never exceeds `max_voxels` values; and at `total = 5_000_000`,
`max_voxels = 2_000_000` the stride is 3.  The whole pipeline is a pure
function of `(shape, values, max_voxels)`, so two calls with the same
volume and parameters yield identical histogram counts and edges. -/
theorem histogram_sampling_policy (dimZ dimY dimX maxV : ℕ) (vals : List ℚ)
    (hlen : vals.length = dimZ * dimY * dimX) (hmax : 1 ≤ maxV) :
    (dimZ * dimY * dimX ≤ maxV →
        subsampled_values dimZ dimY dimX vals maxV = vals)
    ∧ (maxV < dimZ * dimY * dimX →
        subsampled_values dimZ dimY dimX vals maxV
          = strided vals (strideOf (dimZ * dimY * dimX) maxV))
    ∧ (subsampled_values dimZ dimY dimX vals maxV).length ≤ maxV
    ∧ strideOf 5000000 2000000 = 3 := by
  have hstride3 : strideOf 5000000 2000000 = 3 := by
    have h : ⌈((5000000 : ℕ) : ℚ) / ((2000000 : ℕ) : ℚ)⌉ = 3 := by
      rw [Int.ceil_eq_iff]
      norm_num
    simp only [strideOf, h]
    rfl
  by_cases h : dimZ * dimY * dimX ≤ maxV
  · refine ⟨fun _ => ?_, fun hcontra => absurd h (by omega), ?_, hstride3⟩
    · simp only [subsampled_values, if_pos h]
    · simp only [subsampled_values, if_pos h]
      omega
  · push_neg at h
    have htotal1 : 1 ≤ dimZ * dimY * dimX := by omega
    have hratio : (0 : ℚ) < (dimZ * dimY * dimX : ℕ) / (maxV : ℕ) := by
      apply div_pos
      · exact_mod_cast htotal1
      · exact_mod_cast hmax
    have hs1 : 1 ≤ strideOf (dimZ * dimY * dimX) maxV := by
      have := Int.ceil_pos.mpr hratio
      simp only [strideOf]
      omega
    have hmul : dimZ * dimY * dimX ≤ strideOf (dimZ * dimY * dimX) maxV * maxV := by
      have hceil := Int.le_ceil ((dimZ * dimY * dimX : ℕ) / (maxV : ℕ) : ℚ)
      have hmaxQ : (0 : ℚ) < (maxV : ℚ) := by exact_mod_cast hmax
      have h2 : ((dimZ * dimY * dimX : ℕ) : ℚ)
          ≤ (⌈((dimZ * dimY * dimX : ℕ) : ℚ) / ((maxV : ℕ) : ℚ)⌉ : ℚ) * (maxV : ℚ) := by
        rw [div_le_iff₀ hmaxQ] at hceil
        exact hceil
      have h3 : (0 : ℤ) ≤ ⌈((dimZ * dimY * dimX : ℕ) : ℚ) / ((maxV : ℕ) : ℚ)⌉ :=
        le_of_lt (Int.ceil_pos.mpr hratio)
      have h4 : ((dimZ * dimY * dimX : ℕ) : ℤ)
          ≤ ⌈((dimZ * dimY * dimX : ℕ) : ℚ) / ((maxV : ℕ) : ℚ)⌉ * (maxV : ℕ) := by
        exact_mod_cast h2
      have h5 : ((strideOf (dimZ * dimY * dimX) maxV : ℕ) : ℤ)
          = ⌈((dimZ * dimY * dimX : ℕ) : ℚ) / ((maxV : ℕ) : ℚ)⌉ := by
        simp only [strideOf]
        exact Int.toNat_of_nonneg h3
      have h6 : ((dimZ * dimY * dimX : ℕ) : ℤ)
          ≤ ((strideOf (dimZ * dimY * dimX) maxV * maxV : ℕ) : ℤ) := by
        push_cast
        push_cast at h5
        rw [h5]
        exact_mod_cast h4
      exact_mod_cast h6
    refine ⟨fun hcontra => absurd hcontra (by omega), fun _ => ?_, ?_, hstride3⟩
    · simp only [subsampled_values, if_neg (by omega : ¬ dimZ * dimY * dimX ≤ maxV)]
    · simp only [subsampled_values, if_neg (by omega : ¬ dimZ * dimY * dimX ≤ maxV)]
      rw [strided_length _ hs1, hlen]
      refine (Nat.div_le_iff_le_mul_add_pred (by omega)).mpr ?_
      calc dimZ * dimY * dimX + strideOf (dimZ * dimY * dimX) maxV - 1
          = dimZ * dimY * dimX + (strideOf (dimZ * dimY * dimX) maxV - 1) := by
            omega
        _ ≤ strideOf (dimZ * dimY * dimX) maxV * maxV
              + (strideOf (dimZ * dimY * dimX) maxV - 1) :=
            Nat.add_le_add_right hmul _

/-- Witness for C10 on a 2×1×3 volume (6 voxels) with
`max_voxels = 2`. -/
theorem histogram_sampling_policy_witness :
    (([0, 1, 2, 3, 4, 5] : List ℚ).length = 2 * 1 * 3 ∧ 1 ≤ 2)
    ∧ (subsampled_values 2 1 3 [0, 1, 2, 3, 4, 5] 2).length ≤ 2
    ∧ strideOf 5000000 2000000 = 3 :=
  ⟨⟨rfl, by omega⟩,
    (histogram_sampling_policy 2 1 3 2 [0, 1, 2, 3, 4, 5] rfl (by omega)).2.2.1,
    (histogram_sampling_policy 2 1 3 2 [0, 1, 2, 3, 4, 5] rfl (by omega)).2.2.2⟩

